import Mathlib

/-!
Verification of the `relistats` binomial reliability-statistics engine.

The repository computes reliability, confidence and assurance for
success/failure (binomial) experiments.  The core formula, from
`docs/source/background.rst`:

  c(n, f, r) = 1 - ∑ k = 0..f, C(n,k) * (1-r)^k * r^(n-k)

Reliability inverts this formula for `r` given a target confidence, and
assurance solves the self-referential equation `a = c(n, f, a)`.  Both use a
bracketing root finder over `[0, 1]`.  Rational numbers stand in for the
implementation's floating-point values.
-/

/-- Confidence in reliability `r` after observing `f` failures in `n` samples,
embedding the formula of `docs/source/background.rst` (the exact
cumulative-binomial expression). -/
def confidence (n f : ℕ) (r : ℚ) : ℚ :=
  1 - ∑ k in Finset.range (f + 1), (n.choose k : ℚ) * (1 - r) ^ k * r ^ (n - k)

/-- Modelled from the spec: the numerical solver module
(`relistats/binomial.py`, absent from the provided sources) uses a
bounded-interval bracketing root finder.  `bisect h lo hi N` performs `N`
bracketing bisection steps for a root of `h`, keeping `h lo ≥ 0 ≥ h hi`;
the Brent-style acceleration of the original is omitted, the bracket and
tolerance contract are the same. -/
def bisect (h : ℚ → ℚ) (lo hi : ℚ) : ℕ → ℚ × ℚ
  | 0 => (lo, hi)
  | (N + 1) =>
    if 0 ≤ h ((lo + hi) / 2) then bisect h ((lo + hi) / 2) hi N
    else bisect h lo ((lo + hi) / 2) N

/-- Modelled from the spec: the generic root-finding entry point.  It fails
(returns `none`) when the initial interval does not bracket the root, else it
runs the bracketing bisection for `N` steps and returns the lower end of the
final bracket. -/
def findRoot (h : ℚ → ℚ) (lo hi : ℚ) (N : ℕ) : Option ℚ :=
  if 0 ≤ h lo ∧ h hi ≤ 0 then some (bisect h lo hi N).1 else none

/-- Modelled from the spec: `relistats.binomial.reliability` (source file
absent) solves `confidence n f r = t` for `r` over `[0,1]` with the root
finder; it returns `none` for the degenerate inputs `n = 0` and `f ≥ n` and
on root-finder failure.  `N` is the solver's iteration budget. -/
def reliability (n f : ℕ) (t : ℚ) (N : ℕ) : Option ℚ :=
  if n = 0 ∨ n ≤ f then none
  else findRoot (fun r => confidence n f r - t) 0 1 N

/-- Modelled from the spec: `relistats.binomial.assurance` (source file
absent) solves the self-referential equation `a = confidence n f a` over
`[0,1]` with the root finder applied to `h a = confidence n f a - a`; it
returns `none` for the degenerate inputs `n = 0` and `f ≥ n`. -/
def assurance (n f : ℕ) (N : ℕ) : Option ℚ :=
  if n = 0 ∨ n ≤ f then none
  else findRoot (fun a => confidence n f a - a) 0 1 N

/-- Modelled from the spec: the `confidence` entry point validates its domain
(`n ≥ 0`, `0 ≤ f ≤ n`, `r ∈ [0,1]`) and reports an invalid-domain failure as
`none` instead of clamping. -/
def confidenceChecked (n f : ℤ) (r : ℚ) : Option ℚ :=
  if n < 0 ∨ f < 0 ∨ n < f ∨ r < 0 ∨ 1 < r then none
  else some (confidence n.toNat f.toNat r)

/-- The full binomial sum equals 1: this is the binomial theorem applied to
`((1 - r) + r)^n`. -/
theorem sum_binom_eq_one (n : ℕ) (r : ℚ) :
    ∑ k in Finset.range (n + 1), (n.choose k : ℚ) * (1 - r) ^ k * r ^ (n - k) = 1 := by
  have h2 : ∑ k in Finset.range (n + 1), (n.choose k : ℚ) * (1 - r) ^ k * r ^ (n - k)
      = ((1 - r) + r) ^ n := by
    rw [add_pow]
    exact Finset.sum_congr rfl fun k _ => by ring
  rw [h2, sub_add_cancel, one_pow]

/-- Each summand of the binomial sum is nonnegative for `r ∈ [0,1]`. -/
theorem binom_term_nonneg (n k : ℕ) (r : ℚ) (hr0 : 0 ≤ r) (hr1 : r ≤ 1) :
    0 ≤ (n.choose k : ℚ) * (1 - r) ^ k * r ^ (n - k) := by
  have h1 : (0 : ℚ) ≤ 1 - r := by linarith
  positivity

/-- The partial binomial sum lies in `[0, 1]` when `f ≤ n` and `r ∈ [0,1]`. -/
theorem sum_binom_mem (n f : ℕ) (r : ℚ) (hf : f ≤ n) (hr0 : 0 ≤ r) (hr1 : r ≤ 1) :
    0 ≤ ∑ k in Finset.range (f + 1), (n.choose k : ℚ) * (1 - r) ^ k * r ^ (n - k) ∧
      ∑ k in Finset.range (f + 1), (n.choose k : ℚ) * (1 - r) ^ k * r ^ (n - k) ≤ 1 := by
  constructor
  · exact Finset.sum_nonneg fun k _ => binom_term_nonneg n k r hr0 hr1
  · calc ∑ k in Finset.range (f + 1), (n.choose k : ℚ) * (1 - r) ^ k * r ^ (n - k)
        ≤ ∑ k in Finset.range (n + 1), (n.choose k : ℚ) * (1 - r) ^ k * r ^ (n - k) :=
          Finset.sum_le_sum_of_subset_of_nonneg
            (Finset.range_subset.mpr (Nat.succ_le_succ hf))
            (fun k _ _ => binom_term_nonneg n k r hr0 hr1)
      _ = 1 := sum_binom_eq_one n r

/-- At `r = 0` with `f < n`, confidence is exactly 1: every summand carries a
positive power of `r`. -/
theorem confidence_at_zero (n f : ℕ) (hf : f < n) : confidence n f 0 = 1 := by
  unfold confidence
  rw [Finset.sum_eq_zero, sub_zero]
  intro k hk
  rw [Finset.mem_range] at hk
  have hkn : 0 < n - k := by omega
  rw [zero_pow (by omega : n - k ≠ 0)]
  ring

/-- At `r = 1`, confidence is exactly 0: only the `k = 0` summand survives
and it equals 1. -/
theorem confidence_at_one (n f : ℕ) : confidence n f 1 = 0 := by
  unfold confidence
  rw [Finset.sum_eq_single 0]
  · simp
  · intro k _ hk
    rw [sub_self, zero_pow hk]
    ring
  · intro h
    exact absurd (Finset.mem_range.mpr (by omega)) h

theorem choose_idA (n f : ℕ) (hn : 0 < n) :
    n * (n - 1).choose f = n.choose (f + 1) * (f + 1) := by
  have h := Nat.succ_mul_choose_eq (n - 1) f
  simp only [Nat.succ_eq_add_one] at h
  rwa [Nat.sub_add_cancel hn] at h

theorem choose_idB (n f : ℕ) (hn : 0 < n) :
    n * (n - 1).choose (f + 1) = n.choose (f + 1) * (n - (f + 1)) := by
  have h1 := Nat.succ_mul_choose_eq (n - 1) (f + 1)
  simp only [Nat.succ_eq_add_one] at h1
  rw [Nat.sub_add_cancel hn] at h1
  have h2 := Nat.choose_succ_right_eq n (f + 1)
  exact h1.trans h2

theorem hasDerivAt_sumS (n f : ℕ) (hf : f < n) (r : ℝ) :
    HasDerivAt
      (fun x : ℝ => ∑ k in Finset.range (f + 1), (n.choose k : ℝ) * (1 - x) ^ k * x ^ (n - k))
      ((n : ℝ) * ((n - 1).choose f : ℝ) * (1 - r) ^ f * r ^ (n - 1 - f)) r := by
  induction f with
  | zero =>
    have hfun : (fun x : ℝ => ∑ k in Finset.range (0 + 1),
        (n.choose k : ℝ) * (1 - x) ^ k * x ^ (n - k)) = fun x : ℝ => x ^ n := by
      funext x
      simp
    rw [hfun]
    simpa using hasDerivAt_pow n r
  | succ f ih =>
    have hf1 : f < n := by omega
    have hsum : (fun x : ℝ => ∑ k in Finset.range (f + 1 + 1),
        (n.choose k : ℝ) * (1 - x) ^ k * x ^ (n - k))
        = fun x : ℝ => (∑ k in Finset.range (f + 1),
            (n.choose k : ℝ) * (1 - x) ^ k * x ^ (n - k))
          + (n.choose (f + 1) : ℝ) * ((1 - x) ^ (f + 1) * x ^ (n - (f + 1))) := by
      funext x
      rw [Finset.sum_range_succ]
      ring
    rw [hsum]
    have h1 : HasDerivAt (fun x : ℝ => (1 - x) ^ (f + 1))
        (((f : ℝ) + 1) * (1 - r) ^ f * (-1)) r := by
      have h0 := ((hasDerivAt_id r).const_sub (1 : ℝ)).pow (f + 1)
      simpa using h0
    have h2 : HasDerivAt (fun x : ℝ => x ^ (n - (f + 1)))
        (((n - (f + 1) : ℕ) : ℝ) * r ^ (n - (f + 1) - 1)) r := hasDerivAt_pow _ r
    have h3 := (ih hf1).add ((h1.mul h2).const_mul (n.choose (f + 1) : ℝ))
    have hC : ((n - (f + 1) : ℕ) : ℝ) = (n : ℝ) - (f : ℝ) - 1 := by
      have hle : (f + 1 : ℕ) ≤ n := by omega
      push_cast [Nat.cast_sub hle]
      ring
    have hA : ((n : ℝ)) * (((n - 1).choose f : ℝ)) = (n.choose (f + 1) : ℝ) * ((f : ℝ) + 1) := by
      exact_mod_cast choose_idA n f (by omega)
    have hB : ((n : ℝ)) * (((n - 1).choose (f + 1) : ℝ))
        = (n.choose (f + 1) : ℝ) * ((n : ℝ) - (f : ℝ) - 1) := by
      rw [← hC]
      exact_mod_cast choose_idB n f (by omega)
    have hval :
        (n : ℝ) * (((n - 1).choose f : ℝ)) * (1 - r) ^ f * r ^ (n - 1 - f)
          + (n.choose (f + 1) : ℝ) *
            ((((f : ℝ) + 1) * (1 - r) ^ f * (-1)) * r ^ (n - (f + 1))
              + (1 - r) ^ (f + 1) * (((n - (f + 1) : ℕ) : ℝ) * r ^ (n - (f + 1) - 1)))
          = (n : ℝ) * (((n - 1).choose (f + 1) : ℝ)) * (1 - r) ^ (f + 1) * r ^ (n - 1 - (f + 1)) := by
      rw [hC]
      have e1 : n - 1 - f = n - f - 2 + 1 := by omega
      have e2 : n - (f + 1) = n - f - 2 + 1 := by omega
      have e3 : n - (f + 1) - 1 = n - f - 2 := by omega
      have e4 : n - 1 - (f + 1) = n - f - 2 := by omega
      rw [e3, e1, e2, e4]
      simp only [pow_succ]
      linear_combination ((1 - r) ^ f * r ^ (n - f - 2) * r) * hA
        - ((1 - r) ^ f * (1 - r) * r ^ (n - f - 2)) * hB
    rw [← hval]
    exact h3

theorem sumS_monotoneOn (n f : ℕ) (hf : f < n) :
    MonotoneOn
      (fun r : ℝ => ∑ k in Finset.range (f + 1), (n.choose k : ℝ) * (1 - r) ^ k * r ^ (n - k))
      (Set.Icc 0 1) := by
  apply monotoneOn_of_deriv_nonneg (convex_Icc 0 1)
  · intro x _
    exact (hasDerivAt_sumS n f hf x).continuousAt.continuousWithinAt
  · intro x _
    exact (hasDerivAt_sumS n f hf x).differentiableAt.differentiableWithinAt
  · intro x hx
    rw [interior_Icc] at hx
    rw [(hasDerivAt_sumS n f hf x).deriv]
    have h1 : (0 : ℝ) ≤ 1 - x := by linarith [hx.2]
    have h2 : (0 : ℝ) ≤ x := le_of_lt hx.1
    positivity

theorem confidence_cast (n f : ℕ) (q : ℚ) :
    ((confidence n f q : ℚ) : ℝ)
      = 1 - ∑ k in Finset.range (f + 1), (n.choose k : ℝ) * (1 - (q : ℝ)) ^ k * (q : ℝ) ^ (n - k) := by
  unfold confidence
  push_cast
  ring

theorem confidence_anti (n f : ℕ) (hf : f ≤ n) (x y : ℚ)
    (hx : 0 ≤ x) (hxy : x ≤ y) (hy : y ≤ 1) :
    confidence n f y ≤ confidence n f x := by
  rcases eq_or_lt_of_le hf with heq | hlt
  · subst heq
    unfold confidence
    rw [sum_binom_eq_one, sum_binom_eq_one]
  · have hmem1 : (x : ℝ) ∈ Set.Icc (0 : ℝ) 1 := by
      constructor <;> [exact_mod_cast hx; exact_mod_cast hxy.trans hy]
    have hmem2 : (y : ℝ) ∈ Set.Icc (0 : ℝ) 1 := by
      constructor <;> [exact_mod_cast hx.trans hxy; exact_mod_cast hy]
    have hmono := sumS_monotoneOn n f hlt hmem1 hmem2 (by exact_mod_cast hxy)
    rw [← Rat.cast_le (K := ℝ), confidence_cast, confidence_cast]
    linarith

/-- Power functions on `[0,1]` are Lipschitz with constant `k`. -/
theorem pow_abs_sub_le (k : ℕ) (a b : ℚ) (ha0 : 0 ≤ a) (ha1 : a ≤ 1)
    (hb0 : 0 ≤ b) (hb1 : b ≤ 1) :
    |a ^ k - b ^ k| ≤ (k : ℚ) * |a - b| := by
  induction k with
  | zero => simp
  | succ k ih =>
    have key : a ^ (k + 1) - b ^ (k + 1) = a ^ k * (a - b) + b * (a ^ k - b ^ k) := by
      ring
    have hak : |a ^ k| ≤ 1 := by
      rw [abs_of_nonneg (pow_nonneg ha0 k)]
      exact pow_le_one₀ ha0 ha1
    have hbb : |b| ≤ 1 := by rwa [abs_of_nonneg hb0]
    calc |a ^ (k + 1) - b ^ (k + 1)|
        = |a ^ k * (a - b) + b * (a ^ k - b ^ k)| := by rw [key]
      _ ≤ |a ^ k * (a - b)| + |b * (a ^ k - b ^ k)| := abs_add _ _
      _ = |a ^ k| * |a - b| + |b| * |a ^ k - b ^ k| := by rw [abs_mul, abs_mul]
      _ ≤ 1 * |a - b| + 1 * ((k : ℚ) * |a - b|) := by
          gcongr
      _ = ((k : ℚ) + 1) * |a - b| := by ring
      _ = ((k + 1 : ℕ) : ℚ) * |a - b| := by push_cast; ring

/-- One summand of the binomial sum is Lipschitz with constant `k + m`. -/
theorem binom_term_abs_sub_le (k m : ℕ) (x y : ℚ) (hx0 : 0 ≤ x) (hx1 : x ≤ 1)
    (hy0 : 0 ≤ y) (hy1 : y ≤ 1) :
    |(1 - x) ^ k * x ^ m - (1 - y) ^ k * y ^ m| ≤ ((k : ℚ) + m) * |x - y| := by
  have h1x0 : (0 : ℚ) ≤ 1 - x := by linarith
  have h1x1 : 1 - x ≤ 1 := by linarith
  have h1y0 : (0 : ℚ) ≤ 1 - y := by linarith
  have h1y1 : 1 - y ≤ 1 := by linarith
  have key : (1 - x) ^ k * x ^ m - (1 - y) ^ k * y ^ m
      = ((1 - x) ^ k - (1 - y) ^ k) * x ^ m + (1 - y) ^ k * (x ^ m - y ^ m) := by
    ring
  have hxm : |x ^ m| ≤ 1 := by
    rw [abs_of_nonneg (pow_nonneg hx0 m)]
    exact pow_le_one₀ hx0 hx1
  have h1yk : |(1 - y) ^ k| ≤ 1 := by
    rw [abs_of_nonneg (pow_nonneg h1y0 k)]
    exact pow_le_one₀ h1y0 h1y1
  have hfirst : |(1 - x) ^ k - (1 - y) ^ k| ≤ (k : ℚ) * |x - y| := by
    have := pow_abs_sub_le k (1 - x) (1 - y) h1x0 h1x1 h1y0 h1y1
    rwa [show (1 - x) - (1 - y) = -(x - y) from by ring, abs_neg] at this
  calc |(1 - x) ^ k * x ^ m - (1 - y) ^ k * y ^ m|
      = |((1 - x) ^ k - (1 - y) ^ k) * x ^ m + (1 - y) ^ k * (x ^ m - y ^ m)| := by rw [key]
    _ ≤ |((1 - x) ^ k - (1 - y) ^ k) * x ^ m| + |(1 - y) ^ k * (x ^ m - y ^ m)| := abs_add _ _
    _ = |(1 - x) ^ k - (1 - y) ^ k| * |x ^ m| + |(1 - y) ^ k| * |x ^ m - y ^ m| := by
        rw [abs_mul, abs_mul]
    _ ≤ ((k : ℚ) * |x - y|) * 1 + 1 * ((m : ℚ) * |x - y|) := by
        have hsecond := pow_abs_sub_le m x y hx0 hx1 hy0 hy1
        gcongr
    _ = ((k : ℚ) + m) * |x - y| := by ring

/-- The confidence formula is Lipschitz in `r` on `[0,1]` with the crude
constant `n * 2^n`. -/
theorem confidence_lip (n f : ℕ) (hf : f ≤ n) (x y : ℚ) (hx0 : 0 ≤ x) (hx1 : x ≤ 1)
    (hy0 : 0 ≤ y) (hy1 : y ≤ 1) :
    |confidence n f x - confidence n f y| ≤ (n : ℚ) * 2 ^ n * |x - y| := by
  unfold confidence
  have hstep : ∀ k ∈ Finset.range (f + 1),
      |(n.choose k : ℚ) * (1 - x) ^ k * x ^ (n - k)
        - (n.choose k : ℚ) * (1 - y) ^ k * y ^ (n - k)|
      ≤ (n.choose k : ℚ) * ((n : ℚ) * |x - y|) := by
    intro k hk
    rw [Finset.mem_range] at hk
    have hkn : k ≤ n := by omega
    have hfac : (n.choose k : ℚ) * (1 - x) ^ k * x ^ (n - k)
        - (n.choose k : ℚ) * (1 - y) ^ k * y ^ (n - k)
        = (n.choose k : ℚ) * ((1 - x) ^ k * x ^ (n - k) - (1 - y) ^ k * y ^ (n - k)) := by
      ring
    rw [hfac, abs_mul, abs_of_nonneg (by positivity : (0:ℚ) ≤ (n.choose k : ℚ))]
    have hterm := binom_term_abs_sub_le k (n - k) x y hx0 hx1 hy0 hy1
    have hkm : ((k : ℚ) + ((n - k : ℕ) : ℚ)) = (n : ℚ) := by
      push_cast [Nat.cast_sub hkn]
      ring
    rw [hkm] at hterm
    exact mul_le_mul_of_nonneg_left hterm (by positivity)
  have hchoose : ∑ k in Finset.range (f + 1), (n.choose k : ℚ) ≤ 2 ^ n := by
    have hnat : ∑ k in Finset.range (f + 1), n.choose k ≤ 2 ^ n := by
      calc ∑ k in Finset.range (f + 1), n.choose k
          ≤ ∑ k in Finset.range (n + 1), n.choose k :=
            Finset.sum_le_sum_of_subset (Finset.range_subset.mpr (Nat.succ_le_succ hf))
        _ = 2 ^ n := Nat.sum_range_choose n
    exact_mod_cast hnat
  calc |(1 - ∑ k in Finset.range (f + 1), (n.choose k : ℚ) * (1 - x) ^ k * x ^ (n - k))
        - (1 - ∑ k in Finset.range (f + 1), (n.choose k : ℚ) * (1 - y) ^ k * y ^ (n - k))|
      = |∑ k in Finset.range (f + 1), (n.choose k : ℚ) * (1 - x) ^ k * x ^ (n - k)
          - ∑ k in Finset.range (f + 1), (n.choose k : ℚ) * (1 - y) ^ k * y ^ (n - k)| := by
        rw [show (1 - ∑ k in Finset.range (f + 1), (n.choose k : ℚ) * (1 - x) ^ k * x ^ (n - k))
            - (1 - ∑ k in Finset.range (f + 1), (n.choose k : ℚ) * (1 - y) ^ k * y ^ (n - k))
            = -(∑ k in Finset.range (f + 1), (n.choose k : ℚ) * (1 - x) ^ k * x ^ (n - k)
              - ∑ k in Finset.range (f + 1), (n.choose k : ℚ) * (1 - y) ^ k * y ^ (n - k))
          from by ring, abs_neg]
    _ = |∑ k in Finset.range (f + 1),
          ((n.choose k : ℚ) * (1 - x) ^ k * x ^ (n - k)
            - (n.choose k : ℚ) * (1 - y) ^ k * y ^ (n - k))| := by
        rw [Finset.sum_sub_distrib]
    _ ≤ ∑ k in Finset.range (f + 1),
          |(n.choose k : ℚ) * (1 - x) ^ k * x ^ (n - k)
            - (n.choose k : ℚ) * (1 - y) ^ k * y ^ (n - k)| :=
        Finset.abs_sum_le_sum_abs _ _
    _ ≤ ∑ k in Finset.range (f + 1), (n.choose k : ℚ) * ((n : ℚ) * |x - y|) :=
        Finset.sum_le_sum hstep
    _ = (∑ k in Finset.range (f + 1), (n.choose k : ℚ)) * ((n : ℚ) * |x - y|) := by
        rw [← Finset.sum_mul]
    _ ≤ 2 ^ n * ((n : ℚ) * |x - y|) := by
        apply mul_le_mul_of_nonneg_right hchoose
        positivity
    _ = (n : ℚ) * 2 ^ n * |x - y| := by ring

/-- Invariants of the bracketing bisection: the bracket shrinks by half each
step, stays inside the starting interval, and keeps `h` nonnegative at the
lower end and nonpositive at the upper end. -/
theorem bisect_spec (h : ℚ → ℚ) :
    ∀ (N : ℕ) (lo hi : ℚ), lo ≤ hi → 0 ≤ h lo → h hi ≤ 0 →
      (lo ≤ (bisect h lo hi N).1 ∧ (bisect h lo hi N).2 ≤ hi) ∧
        (bisect h lo hi N).1 ≤ (bisect h lo hi N).2 ∧
        (0 ≤ h (bisect h lo hi N).1 ∧ h (bisect h lo hi N).2 ≤ 0) ∧
        (bisect h lo hi N).2 - (bisect h lo hi N).1 = (hi - lo) / 2 ^ N := by
  intro N
  induction N with
  | zero =>
    intro lo hi hlh h0 h1
    refine ⟨⟨le_refl _, le_refl _⟩, hlh, ⟨h0, h1⟩, ?_⟩
    simp [bisect]
  | succ N ih =>
    intro lo hi hlh h0 h1
    rw [bisect]
    have hlom : lo ≤ (lo + hi) / 2 := by linarith
    have hmhi : (lo + hi) / 2 ≤ hi := by linarith
    by_cases hc : 0 ≤ h ((lo + hi) / 2)
    · rw [if_pos hc]
      obtain ⟨⟨a1, a2⟩, b, c, d⟩ := ih ((lo + hi) / 2) hi hmhi hc h1
      refine ⟨⟨hlom.trans a1, a2⟩, b, c, ?_⟩
      rw [d]
      ring
    · rw [if_neg hc]
      obtain ⟨⟨a1, a2⟩, b, c, d⟩ := ih lo ((lo + hi) / 2) hlom h0 (le_of_lt (lt_of_not_le hc))
      refine ⟨⟨a1, a2.trans hmhi⟩, b, c, ?_⟩
      rw [d]
      ring

/-- If `h` decreases at rate at most `L` and brackets a root of `[0,1]`, then
after `N` bisection steps the value of `h` at the returned point is within
`L / 2^N` of zero. -/
theorem bisect_residual (h : ℚ → ℚ) (L : ℚ) (N : ℕ)
    (hL : ∀ x y : ℚ, 0 ≤ x → x ≤ y → y ≤ 1 → h x - h y ≤ L * (y - x))
    (h0 : 0 ≤ h 0) (h1 : h 1 ≤ 0) :
    |h (bisect h 0 1 N).1| ≤ L / 2 ^ N := by
  obtain ⟨⟨a1, a2⟩, b, ⟨c1, c2⟩, d⟩ := bisect_spec h N 0 1 (by norm_num) h0 h1
  have k1 := hL (bisect h 0 1 N).1 (bisect h 0 1 N).2 a1 b a2
  have k2 : L * ((bisect h 0 1 N).2 - (bisect h 0 1 N).1) = L / 2 ^ N := by
    rw [d]
    ring
  rw [abs_of_nonneg c1]
  linarith

/-- Localization: if `h` is antitone on `[0,1]` and sign checks at `u` and `v`
show the root lies between them, then the bisection result lies in
`[u - 2^{-N}, v]`. -/
theorem bisect_between (h : ℚ → ℚ) (N : ℕ) (u v : ℚ)
    (hanti : ∀ x y : ℚ, 0 ≤ x → x ≤ y → y ≤ 1 → h y ≤ h x)
    (h0 : 0 ≤ h 0) (h1 : h 1 ≤ 0)
    (_hu0 : 0 ≤ u) (hu1 : u ≤ 1) (hv0 : 0 ≤ v) (_hv1 : v ≤ 1)
    (hu : 0 < h u) (hv : h v < 0) :
    u - 1 / 2 ^ N ≤ (bisect h 0 1 N).1 ∧ (bisect h 0 1 N).1 ≤ v := by
  obtain ⟨⟨a1, a2⟩, b, ⟨c1, c2⟩, d⟩ := bisect_spec h N 0 1 (by norm_num) h0 h1
  constructor
  · by_contra hcon
    push_neg at hcon
    have hp2u : (bisect h 0 1 N).2 ≤ u := by
      have hw : (bisect h 0 1 N).2 - (bisect h 0 1 N).1 = 1 / 2 ^ N := by
        rw [d]
        ring
      linarith
    have := hanti (bisect h 0 1 N).2 u (a1.trans' (by linarith) |>.trans b) hp2u hu1
    linarith
  · by_contra hcon
    push_neg at hcon
    have := hanti v (bisect h 0 1 N).1 hv0 (le_of_lt hcon) (b.trans a2)
    linarith

/-- Antitone form of the confidence Lipschitz bound, shifted by a linear term:
used as the rate hypothesis of `bisect_residual` for the assurance solver. -/
theorem confidence_sub_id_rate (n f : ℕ) (hf : f ≤ n) :
    ∀ x y : ℚ, 0 ≤ x → x ≤ y → y ≤ 1 →
      (confidence n f x - x) - (confidence n f y - y) ≤ ((n : ℚ) * 2 ^ n + 1) * (y - x) := by
  intro x y hx0 hxy hy1
  have hlip := confidence_lip n f hf x y hx0 (hxy.trans hy1) (hx0.trans hxy) hy1
  have habs : |x - y| = y - x := by
    rw [abs_sub_comm, abs_of_nonneg (by linarith)]
  rw [habs] at hlip
  have hle := le_abs_self (confidence n f x - confidence n f y)
  nlinarith

/-- Claim C1: for every `n ≥ 0`, `0 ≤ f ≤ n` and `r ∈ [0,1]`, `confidence`
returns exactly `1 - ∑_{k=0}^{f} C(n,k)·(1-r)^k·r^(n-k)`, and that value lies
in `[0,1]`. -/
theorem confidence_exact_formula_and_in_unit_interval (n f : ℕ) (r : ℚ)
    (hf : f ≤ n) (hr0 : 0 ≤ r) (hr1 : r ≤ 1) :
    confidence n f r
        = 1 - ∑ k in Finset.range (f + 1), (n.choose k : ℚ) * (1 - r) ^ k * r ^ (n - k) ∧
      0 ≤ confidence n f r ∧ confidence n f r ≤ 1 := by
  obtain ⟨hs0, hs1⟩ := sum_binom_mem n f r hf hr0 hr1
  refine ⟨rfl, ?_, ?_⟩ <;> unfold confidence <;> linarith

/-- Witness for C1 at `n = 2`, `f = 1`, `r = 1/2`. -/
theorem confidence_exact_formula_and_in_unit_interval_witness :
    confidence 2 1 (1/2)
        = 1 - ∑ k in Finset.range (1 + 1),
            ((2:ℕ).choose k : ℚ) * (1 - 1/2) ^ k * (1/2) ^ (2 - k) ∧
      0 ≤ confidence 2 1 (1/2) ∧ confidence 2 1 (1/2) ≤ 1 :=
  confidence_exact_formula_and_in_unit_interval 2 1 (1/2)
    (by norm_num) (by norm_num) (by norm_num)

/-- Claim C2: whenever the assurance solver returns a value `a` for `f < n`,
`confidence n f a` equals `a` up to the solver tolerance
`(n·2^n + 1) / 2^N` induced by the iteration budget `N`. -/
theorem assurance_fixed_point (n f N : ℕ) (a : ℚ) (hf : f < n)
    (ha : assurance n f N = some a) :
    |confidence n f a - a| ≤ ((n : ℚ) * 2 ^ n + 1) / 2 ^ N := by
  have hb0 : (0 : ℚ) ≤ confidence n f 0 - 0 := by
    rw [confidence_at_zero n f hf]
    norm_num
  have hb1 : confidence n f 1 - 1 ≤ 0 := by
    rw [confidence_at_one n f]
    norm_num
  unfold assurance findRoot at ha
  rw [if_neg (by omega), if_pos ⟨hb0, hb1⟩] at ha
  obtain rfl := Option.some.inj ha
  have hres := bisect_residual (fun a => confidence n f a - a) ((n : ℚ) * 2 ^ n + 1) N
    (confidence_sub_id_rate n f (le_of_lt hf)) hb0 hb1
  simpa using hres

/-- Witness for C2 at `n = 2`, `f = 0`, `N = 0` (the solver returns the lower
bracket end `0`). -/
theorem assurance_fixed_point_witness :
    |confidence 2 0 0 - 0| ≤ ((2 : ℚ) * 2 ^ 2 + 1) / 2 ^ 0 :=
  assurance_fixed_point 2 0 0 0 (by norm_num)
    (by norm_num [assurance, findRoot, bisect, confidence, Finset.sum_range_succ])

/-- Claim C3: whenever the reliability solver returns a value `r` for `f < n`
and a target confidence `t ∈ [0,1]`, `confidence n f r` equals `t` up to the
solver tolerance `n·2^n / 2^N` induced by the iteration budget `N`. -/
theorem reliability_round_trip (n f N : ℕ) (t r : ℚ) (hf : f < n)
    (ht0 : 0 ≤ t) (ht1 : t ≤ 1) (hr : reliability n f t N = some r) :
    |confidence n f r - t| ≤ ((n : ℚ) * 2 ^ n) / 2 ^ N := by
  have hb0 : (0 : ℚ) ≤ confidence n f 0 - t := by
    rw [confidence_at_zero n f hf]
    linarith
  have hb1 : confidence n f 1 - t ≤ 0 := by
    rw [confidence_at_one n f]
    linarith
  unfold reliability findRoot at hr
  rw [if_neg (by omega), if_pos ⟨hb0, hb1⟩] at hr
  obtain rfl := Option.some.inj hr
  have hrate : ∀ x y : ℚ, 0 ≤ x → x ≤ y → y ≤ 1 →
      (confidence n f x - t) - (confidence n f y - t) ≤ ((n : ℚ) * 2 ^ n) * (y - x) := by
    intro x y hx0 hxy hy1
    have hlip := confidence_lip n f (le_of_lt hf) x y hx0 (hxy.trans hy1) (hx0.trans hxy) hy1
    have habs : |x - y| = y - x := by
      rw [abs_sub_comm, abs_of_nonneg (by linarith)]
    rw [habs] at hlip
    have hle := le_abs_self (confidence n f x - confidence n f y)
    nlinarith
  have hres := bisect_residual (fun r => confidence n f r - t) ((n : ℚ) * 2 ^ n) N
    hrate hb0 hb1
  simpa using hres

/-- Witness for C3 at `n = 2`, `f = 0`, `t = 1/2`, `N = 0`. -/
theorem reliability_round_trip_witness :
    |confidence 2 0 0 - 1/2| ≤ ((2 : ℚ) * 2 ^ 2) / 2 ^ 0 :=
  reliability_round_trip 2 0 0 (1/2) 0 (by norm_num) (by norm_num) (by norm_num)
    (by norm_num [reliability, findRoot, bisect, confidence, Finset.sum_range_succ])

/-- Claim C4 counterexample: `confidence` is not non-decreasing in `r`; at the
valid pair `n = 1`, `f = 0` with `r1 = 0 ≤ r2 = 1` the confidence strictly
drops from 1 to 0. -/
theorem confidence_nondecreasing_counterexample :
    ¬ (confidence 1 0 0 ≤ confidence 1 0 1) := by
  norm_num [confidence, Finset.sum_range_succ]

/-- Claim C4 (amended): for a fixed valid pair `(n, f)` the confidence is
non-increasing (not non-decreasing) in the reliability argument on `[0,1]`. -/
theorem confidence_antitone_in_reliability (n f : ℕ) (r1 r2 : ℚ) (hf : f ≤ n)
    (h0 : 0 ≤ r1) (h12 : r1 ≤ r2) (h21 : r2 ≤ 1) :
    confidence n f r2 ≤ confidence n f r1 :=
  confidence_anti n f hf r1 r2 h0 h12 h21

/-- Witness for the amended C4 at `n = 2`, `f = 1`, `r1 = 1/4`, `r2 = 3/4`. -/
theorem confidence_antitone_in_reliability_witness :
    confidence 2 1 (3/4) ≤ confidence 2 1 (1/4) :=
  confidence_antitone_in_reliability 2 1 (1/4) (3/4)
    (by norm_num) (by norm_num) (by norm_num) (by norm_num)

/-- Claim C5 counterexample: at the valid pair `n = 1`, `f = 0` (so `f < n`),
`confidence n f 0` is not 0 and `confidence n f 1` is not approximately 1 —
the boundary values are exactly the other way around. -/
theorem confidence_boundary_counterexample :
    ¬ (confidence 1 0 0 = 0) ∧ ¬ (|confidence 1 0 1 - 1| ≤ 1/2) := by
  norm_num [confidence, Finset.sum_range_succ]

/-- Claim C5 (amended): for every valid `(n, f)` with `f < n`,
`confidence n f 0 = 1` and `confidence n f 1 = 0` (the spec had the two
boundary values swapped). -/
theorem confidence_boundary_values (n f : ℕ) (hf : f < n) :
    confidence n f 0 = 1 ∧ confidence n f 1 = 0 :=
  ⟨confidence_at_zero n f hf, confidence_at_one n f⟩

/-- Witness for the amended C5 at `n = 3`, `f = 1`. -/
theorem confidence_boundary_values_witness :
    confidence 3 1 0 = 1 ∧ confidence 3 1 1 = 0 :=
  confidence_boundary_values 3 1 (by norm_num)

/-- Claim C6: for `f = n` (all samples failed) or `n = 0`, both `reliability`
and `assurance` report the distinct absent result `none` — in particular never
`some x` for any value `x`, positive or zero. -/
theorem degenerate_inputs_give_none (n f N : ℕ) (t : ℚ) (h : f = n ∨ n = 0) :
    reliability n f t N = none ∧ assurance n f N = none ∧
      ∀ x : ℚ, reliability n f t N ≠ some x ∧ assurance n f N ≠ some x := by
  have hg : n = 0 ∨ n ≤ f := by omega
  unfold reliability assurance
  rw [if_pos hg, if_pos hg]
  refine ⟨rfl, rfl, fun x => ⟨?_, ?_⟩⟩ <;> simp

/-- Witness for C6 at `n = f = 3`. -/
theorem degenerate_inputs_give_none_witness :
    reliability 3 3 (1/2) 5 = none ∧ assurance 3 3 5 = none ∧
      ∀ x : ℚ, reliability 3 3 (1/2) 5 ≠ some x ∧ assurance 3 3 5 ≠ some x :=
  degenerate_inputs_give_none 3 3 5 (1/2) (Or.inl rfl)

/-- Claim C7: the checked confidence entry point reports invalid-domain inputs
(`n < 0`, `f < 0`, `f > n`, or `r ∉ [0,1]`) as an immediate failure rather
than clamping, and succeeds on every valid-domain input. -/
theorem confidenceChecked_invalid_and_valid (n f : ℤ) (r : ℚ) :
    ((n < 0 ∨ f < 0 ∨ n < f ∨ r < 0 ∨ 1 < r) → confidenceChecked n f r = none) ∧
      (0 ≤ n → 0 ≤ f → f ≤ n → 0 ≤ r → r ≤ 1 →
        confidenceChecked n f r = some (confidence n.toNat f.toNat r)) := by
  constructor
  · intro h
    unfold confidenceChecked
    rw [if_pos h]
  · intro h1 h2 h3 h4 h5
    unfold confidenceChecked
    rw [if_neg]
    push_neg
    exact ⟨h1, h2, h3, h4, h5⟩

/-- Witness for C7: an invalid input (`n = -1`) is rejected and a valid input
(`n = 3`, `f = 1`, `r = 1/2`) succeeds. -/
theorem confidenceChecked_invalid_and_valid_witness :
    confidenceChecked (-1) 0 (1/2) = none ∧
      confidenceChecked 3 1 (1/2) = some (confidence (3 : ℤ).toNat (1 : ℤ).toNat (1/2)) :=
  ⟨(confidenceChecked_invalid_and_valid (-1) 0 (1/2)).1 (by norm_num),
    (confidenceChecked_invalid_and_valid 3 1 (1/2)).2
      (by norm_num) (by norm_num) (by norm_num) (by norm_num) (by norm_num)⟩

/-- Claim C8: with `n = 10` samples and `f = 0` failures, the reliability at
confidence target 0.95 is approximately 0.741. -/
theorem reliability_10_0_at_95 :
    ∃ r : ℚ, reliability 10 0 (95/100) 12 = some r ∧ |r - 741/1000| ≤ 1/1000 := by
  have hb0 : (0 : ℚ) ≤ confidence 10 0 0 - 95/100 := by
    rw [confidence_at_zero 10 0 (by norm_num)]
    norm_num
  have hb1 : confidence 10 0 1 - 95/100 ≤ 0 := by
    rw [confidence_at_one 10 0]
    norm_num
  have hrel : reliability 10 0 (95/100) 12
      = some (bisect (fun r => confidence 10 0 r - 95/100) 0 1 12).1 := by
    unfold reliability findRoot
    rw [if_neg (by omega), if_pos ⟨hb0, hb1⟩]
  have hanti : ∀ x y : ℚ, 0 ≤ x → x ≤ y → y ≤ 1 →
      confidence 10 0 y - 95/100 ≤ confidence 10 0 x - 95/100 := by
    intro x y hx hxy hy
    have := confidence_anti 10 0 (by norm_num) x y hx hxy hy
    linarith
  have hu : (0 : ℚ) < confidence 10 0 (7405/10000) - 95/100 := by
    norm_num [confidence, Finset.sum_range_succ]
  have hv : confidence 10 0 (7415/10000) - 95/100 < 0 := by
    norm_num [confidence, Finset.sum_range_succ]
  obtain ⟨hlow, hhigh⟩ := bisect_between (fun r => confidence 10 0 r - 95/100) 12
    (7405/10000) (7415/10000) hanti hb0 hb1
    (by norm_num) (by norm_num) (by norm_num) (by norm_num) hu hv
  refine ⟨_, hrel, ?_⟩
  rw [abs_le]
  have hp : (1 : ℚ) / 2 ^ 12 = 1 / 4096 := by norm_num
  rw [hp] at hlow
  constructor <;> linarith

/-- Multiplicative Pascal step used to evaluate binomial coefficients at
large literals. -/
theorem choose_step (n k a b : ℕ) (h : n.choose k = a) (hab : a * (n - k) = b * (k + 1)) :
    n.choose (k + 1) = b := by
  have e := Nat.choose_succ_right_eq n k
  rw [h, hab] at e
  exact Nat.eq_of_mul_eq_mul_right (Nat.succ_pos k) e

/-- Claim C9: with `f = 10` failures, 152 samples achieve assurance at least
0.90 while 151 samples fall strictly below 0.90 (the minimum-samples
boundary from the assurance notebook). -/
theorem assurance_min_samples_boundary :
    (∃ a : ℚ, assurance 152 10 13 = some a ∧ 9/10 ≤ a) ∧
      (∃ b : ℚ, assurance 151 10 13 = some b ∧ b < 9/10) := by
  constructor
  · have hb0 : (0 : ℚ) ≤ confidence 152 10 0 - 0 := by
      rw [confidence_at_zero 152 10 (by norm_num)]
      norm_num
    have hb1 : confidence 152 10 1 - 1 ≤ 0 := by
      rw [confidence_at_one 152 10]
      norm_num
    have hass : assurance 152 10 13
        = some (bisect (fun a => confidence 152 10 a - a) 0 1 13).1 := by
      unfold assurance findRoot
      rw [if_neg (by omega), if_pos ⟨hb0, hb1⟩]
    have hanti : ∀ x y : ℚ, 0 ≤ x → x ≤ y → y ≤ 1 →
        confidence 152 10 y - y ≤ confidence 152 10 x - x := by
      intro x y hx hxy hy
      have := confidence_anti 152 10 (by norm_num) x y hx hxy hy
      linarith
    have d1 : (152:ℕ).choose 1 = 152 := Nat.choose_one_right 152
    have d2 : (152:ℕ).choose 2 = 11476 := choose_step 152 1 152 11476 d1 (by norm_num)
    have d3 : (152:ℕ).choose 3 = 573800 := choose_step 152 2 11476 573800 d2 (by norm_num)
    have d4 : (152:ℕ).choose 4 = 21374050 := choose_step 152 3 573800 21374050 d3 (by norm_num)
    have d5 : (152:ℕ).choose 5 = 632671880 := choose_step 152 4 21374050 632671880 d4 (by norm_num)
    have d6 : (152:ℕ).choose 6 = 15500461060 := choose_step 152 5 632671880 15500461060 d5 (by norm_num)
    have d7 : (152:ℕ).choose 7 = 323295330680 := choose_step 152 6 15500461060 323295330680 d6 (by norm_num)
    have d8 : (152:ℕ).choose 8 = 5859727868575 := choose_step 152 7 323295330680 5859727868575 d7 (by norm_num)
    have d9 : (152:ℕ).choose 9 = 93755645897200 := choose_step 152 8 5859727868575 93755645897200 d8 (by norm_num)
    have d10 : (152:ℕ).choose 10 = 1340705736329960 := choose_step 152 9 93755645897200 1340705736329960 d9 (by norm_num)
    have hu : (0 : ℚ) < confidence 152 10 (9002/10000) - 9002/10000 := by
      norm_num [confidence, Finset.sum_range_succ, d2, d3, d4, d5, d6, d7, d8, d9, d10]
    have hv : confidence 152 10 1 - 1 < 0 := by
      rw [confidence_at_one 152 10]
      norm_num
    obtain ⟨hlow, _⟩ := bisect_between (fun a => confidence 152 10 a - a) 13
      (9002/10000) 1 hanti hb0 hb1
      (by norm_num) (by norm_num) (by norm_num) (by norm_num) hu hv
    refine ⟨_, hass, ?_⟩
    have hp : (1 : ℚ) / 2 ^ 13 = 1 / 8192 := by norm_num
    rw [hp] at hlow
    linarith
  · have hb0 : (0 : ℚ) ≤ confidence 151 10 0 - 0 := by
      rw [confidence_at_zero 151 10 (by norm_num)]
      norm_num
    have hb1 : confidence 151 10 1 - 1 ≤ 0 := by
      rw [confidence_at_one 151 10]
      norm_num
    have hass : assurance 151 10 13
        = some (bisect (fun a => confidence 151 10 a - a) 0 1 13).1 := by
      unfold assurance findRoot
      rw [if_neg (by omega), if_pos ⟨hb0, hb1⟩]
    have hanti : ∀ x y : ℚ, 0 ≤ x → x ≤ y → y ≤ 1 →
        confidence 151 10 y - y ≤ confidence 151 10 x - x := by
      intro x y hx hxy hy
      have := confidence_anti 151 10 (by norm_num) x y hx hxy hy
      linarith
    have e1 : (151:ℕ).choose 1 = 151 := Nat.choose_one_right 151
    have e2 : (151:ℕ).choose 2 = 11325 := choose_step 151 1 151 11325 e1 (by norm_num)
    have e3 : (151:ℕ).choose 3 = 562475 := choose_step 151 2 11325 562475 e2 (by norm_num)
    have e4 : (151:ℕ).choose 4 = 20811575 := choose_step 151 3 562475 20811575 e3 (by norm_num)
    have e5 : (151:ℕ).choose 5 = 611860305 := choose_step 151 4 20811575 611860305 e4 (by norm_num)
    have e6 : (151:ℕ).choose 6 = 14888600755 := choose_step 151 5 611860305 14888600755 e5 (by norm_num)
    have e7 : (151:ℕ).choose 7 = 308406729925 := choose_step 151 6 14888600755 308406729925 e6 (by norm_num)
    have e8 : (151:ℕ).choose 8 = 5551321138650 := choose_step 151 7 308406729925 5551321138650 e7 (by norm_num)
    have e9 : (151:ℕ).choose 9 = 88204324758550 := choose_step 151 8 5551321138650 88204324758550 e8 (by norm_num)
    have e10 : (151:ℕ).choose 10 = 1252501411571410 := choose_step 151 9 88204324758550 1252501411571410 e9 (by norm_num)
    have hu : (0 : ℚ) < confidence 151 10 0 - 0 := by
      rw [confidence_at_zero 151 10 (by norm_num)]
      norm_num
    have hv : confidence 151 10 (8999/10000) - 8999/10000 < 0 := by
      norm_num [confidence, Finset.sum_range_succ, e2, e3, e4, e5, e6, e7, e8, e9, e10]
    obtain ⟨_, hhigh⟩ := bisect_between (fun a => confidence 151 10 a - a) 13
      0 (8999/10000) hanti hb0 hb1
      (by norm_num) (by norm_num) (by norm_num) (by norm_num) hu hv
    refine ⟨_, hass, ?_⟩
    linarith

/-- Claim C10: with `n = 10` samples and `f = 1` failure, the assurance solver
returns a present value approximately equal to 0.752. -/
theorem assurance_10_1_value :
    ∃ a : ℚ, assurance 10 1 12 = some a ∧ |a - 752/1000| ≤ 1/1000 := by
  have hb0 : (0 : ℚ) ≤ confidence 10 1 0 - 0 := by
    rw [confidence_at_zero 10 1 (by norm_num)]
    norm_num
  have hb1 : confidence 10 1 1 - 1 ≤ 0 := by
    rw [confidence_at_one 10 1]
    norm_num
  have hass : assurance 10 1 12
      = some (bisect (fun a => confidence 10 1 a - a) 0 1 12).1 := by
    unfold assurance findRoot
    rw [if_neg (by omega), if_pos ⟨hb0, hb1⟩]
  have hanti : ∀ x y : ℚ, 0 ≤ x → x ≤ y → y ≤ 1 →
      confidence 10 1 y - y ≤ confidence 10 1 x - x := by
    intro x y hx hxy hy
    have := confidence_anti 10 1 (by norm_num) x y hx hxy hy
    linarith
  have hu : (0 : ℚ) < confidence 10 1 (7515/10000) - 7515/10000 := by
    norm_num [confidence, Finset.sum_range_succ]
  have hv : confidence 10 1 (7519/10000) - 7519/10000 < 0 := by
    norm_num [confidence, Finset.sum_range_succ]
  obtain ⟨hlow, hhigh⟩ := bisect_between (fun a => confidence 10 1 a - a) 12
    (7515/10000) (7519/10000) hanti hb0 hb1
    (by norm_num) (by norm_num) (by norm_num) (by norm_num) hu hv
  refine ⟨_, hass, ?_⟩
  rw [abs_le]
  have hp : (1 : ℚ) / 2 ^ 12 = 1 / 4096 := by norm_num
  rw [hp] at hlow
  constructor <;> linarith
